import Mathlib

/-!
Verification of the constraint-generation gadgets in
storage-proofs-update/src/gadgets.rs: bit decomposition, Merkle inclusion
verification over a composite (base/sub/top) tree shape, apex-tree
reduction, challenge-bit generation, high-bit selection, and the label
update gadget.

The gadgets are embedded shallowly at the witness level: field elements are
values of the BLS12-381 scalar field, every rank-1 constraint enforced by a
gadget is recorded as the evaluated triple (A, B, C) of its three linear
combinations, and Rust panics (failed asserts and iterator-exhaustion
expects) are represented by returning none.  Constraints emitted by the
external collaborator gadgets (the hash gadgets, the insertion gadget, the
bit-packing gadget, bit allocation) are out of scope, as in the spec; the
recorded constraints are exactly the ones enforced by this file of the
source.
-/

namespace StorageProofsUpdate

/-- The modulus of the BLS12-381 scalar field (blstrs `Scalar`). -/
def P : Nat := 52435875175126190479447740508185965837690552500527637822603658699938581184513

/-- Field elements (blstrs `Scalar`, a.k.a. `Fr`). -/
abbrev F := ZMod P

instance : NeZero P := ⟨by decide⟩

/-- A rank-1 constraint, recorded as the witness values of its three linear
combinations; it is satisfied when the first times the second equals the
third. -/
abbrev Constraint := F × F × F

/-- Little-endian value of a bit list (bit `i` weighted by `2 ^ i`). -/
def natOfBits : List Bool → Nat
  | [] => 0
  | b :: bs => b.toNat + 2 * natOfBits bs

/-- The field value of the linear combination
`2^0 * bits[0] + ... + 2^(n-1) * bits[n-1]` built over a list of bits. -/
def lcOfBits : List Bool → F
  | [] => 0
  | b :: bs => (if b then (1 : F) else 0) + 2 * lcOfBits bs

/-- The constraint weight the source computes for bit `i` in
`allocated_num_to_allocated_bits`: `Fr::from(1u64 << i)`.  A u64 shift by
`i >= 64` wraps the shift amount to `i % 64` in release builds (debug
builds panic on the overflowing shift), so the weight is `2 ^ (i % 64)`
rather than the `2 ^ i` the source's own comment asserts. -/
def pow2u64 (i : Nat) : F := ((2 ^ (i % 64) : Nat) : F)

/-- The field value of the linear combination the source builds in
`allocated_num_to_allocated_bits`, starting at bit index `i`: each bit is
weighted by `Fr::from(1u64 << index)`, with the u64 shift-wrap of
`pow2u64`. -/
def lcOfBitsU64 : Nat → List Bool → F
  | _, [] => 0
  | i, b :: bs => (if b then pow2u64 i else 0) + lcOfBitsU64 (i + 1) bs

/-- The `n` little-endian bits of `m`. -/
def natToBitsLE : Nat → Nat → List Bool
  | 0, _ => []
  | n + 1, m => (m % 2 == 1) :: natToBitsLE n (m / 2)

/-- Modelled from the spec: bellperson `field_into_allocated_bits_le` (an
external collaborator of this core), which allocates the
`Fr::NUM_BITS = 255` little-endian bits of the witness value. -/
def fieldIntoAllocatedBitsLe (x : F) : List Bool := natToBitsLE 255 x.val

/-- `allocated_num_to_allocated_bits` from gadgets.rs: allocate `num` as
its 255 little-endian bits and enforce one linear constraint over them.
The source's comment asserts the constraint
`(2^0 * bits[0] + ... + 2^254 * bits[254]) * 1 == num`, but the weight it
computes is `Fr::from(1u64 << i)`, whose u64 shift wraps for `i >= 64`
(release semantics; debug builds panic), so the enforced left side is
`lcOfBitsU64 0 bits`, not `lcOfBits bits`. -/
def allocated_num_to_allocated_bits (num : F) : List Bool × List Constraint :=
  let bits := fieldIntoAllocatedBitsLe num
  (bits, [(lcOfBitsU64 0 bits, 1, num)])

/-- Modelled from the spec: the field-element multiplication gadget
(bellperson `AllocatedNum::mul`, an external collaborator): allocate the
product and enforce the single multiplication constraint `a * b = product`. -/
def numMul (a b : F) : F × List Constraint := (a * b, [(a, b, a * b)])

/-- `label_r_new` from gadgets.rs: multiply the new-data label by `rho` with
the multiplication gadget, then allocate
`label_r_new = label_r_old + label_d_new * rho` and enforce that identity
with one linear constraint. -/
def label_r_new (label_r_old label_d_new rho : F) : F × List Constraint :=
  let prod := numMul label_d_new rho
  (label_r_old + prod.1,
   prod.2 ++ [(label_r_old + prod.1, 1, label_r_old + prod.1)])

/-- Chunks of size `k` of a list, the last chunk possibly shorter (Rust
slice `chunks`; the source never calls it with chunk size zero). -/
def listChunks {α : Type} (k : Nat) : List α → List (List α)
  | [] => []
  | a :: l => (a :: l.take (k - 1)) :: listChunks k (l.drop (k - 1))
termination_by l => l.length
decreasing_by simp [List.length_drop]; omega

/-- `challenges_per_digest` from `gen_challenge_bits`:
`Fr::CAPACITY as usize / bits_per_challenge`, with `Fr::CAPACITY = 254`. -/
def challengesPerDigest (bits_per_challenge : Nat) : Nat :=
  254 / bits_per_challenge

/-- Floor of the base-2 logarithm, by structural recursion on a fuel
covering the 64-bit range (so that it evaluates by kernel reduction). -/
def log2Fuel : Nat → Nat → Nat
  | 0, _ => 0
  | fuel + 1, n => if n ≤ 1 then 0 else log2Fuel fuel (n / 2) + 1

/-- Floor of the base-2 logarithm of a u64-ranged natural. -/
def natLog2 (n : Nat) : Nat := log2Fuel 64 n

/-- Division of naturals rounded to nearest, ties to even (the IEEE-754
default rounding applied to an exact quotient). -/
def rneDiv (u v : Nat) : Nat :=
  let q := u / v
  let r := u % v
  if 2 * r < v then q
  else if v < 2 * r then q + 1
  else if q % 2 = 0 then q else q + 1

/-- `a as f32` for a natural `a`: round to the nearest IEEE-754 binary32
value (24-bit significand, ties to even).  Every such value of an integer
this large is itself an integer, so the result is returned as a natural
number. -/
def roundF32Nat (a : Nat) : Nat :=
  if a ≤ 2 ^ 24 then a
  else
    let k := natLog2 a - 23
    rneDiv a (2 ^ k) * 2 ^ k

/-- `(a as f32 / b as f32).ceil() as u64` for naturals `a` and `b ≤ 254`
(so `b as f32` is exact): round `a` to binary32, divide with correct
rounding (ties to even), take the ceiling (always exact in binary32), and
truncate with Rust's saturating float-to-integer cast.  `b = 0` divides by
zero: the quotient is NaN (cast to 0) or infinity (saturating to
`u64::MAX`). -/
def f32CeilDiv (a b : Nat) : Nat :=
  if b = 0 then (if a = 0 then 0 else 2 ^ 64 - 1)
  else
    let x := roundF32Nat a
    if x = 0 then 0
    else if x < b then 1
    else
      let e := natLog2 (x / b)
      let c :=
        if 23 ≤ e then rneDiv x (b * 2 ^ (e - 23)) * 2 ^ (e - 23)
        else (rneDiv (x * 2 ^ (23 - e)) b + 2 ^ (23 - e) - 1) /
          2 ^ (23 - e)
      min c (2 ^ 64 - 1)

/-- `digests_per_partition` from `gen_challenge_bits`:
`(challenges as f32 / challenges_per_digest as f32).ceil() as u64`,
embedded with exact binary32 semantics; it equals the exact ceiling
`ceil(challenges / challenges_per_digest)` only while the f32 rounding is
lossless (in particular for all `challenges <= 2 ^ 24`). -/
def digestsPerPartition (challenges bits_per_challenge : Nat) : Nat :=
  f32CeilDiv challenges (challengesPerDigest bits_per_challenge)

/-- One iteration of the digest loop of `gen_challenge_bits`: allocate
`digest_index`, enforce `digest_index == partition * digests_per_partition
+ j` with one linear constraint (`digests_per_partition` and `j` being
unallocated constants), hash `(comm_r_new, digest_index)` with the
two-input hash gadget, decompose the digest into 255 bits, and take
`bits_per_challenge`-sized groups of those bits — all remaining groups on
the final digest, `challenges_per_digest` groups otherwise. -/
def genStep (hash2 : F → F → F) (comm_r_new partition : F)
    (challenges bits_per_challenge dpp : Nat)
    (acc : List (List Bool) × List Constraint) (j : Nat) :
    List (List Bool) × List Constraint :=
  let digest_index : F := partition * (dpp : F) + (j : F)
  let digest := hash2 comm_r_new digest_index
  let db := allocated_num_to_allocated_bits digest
  let challenges_to_take :=
    if j = dpp - 1 then challenges - acc.1.length
    else challengesPerDigest bits_per_challenge
  (acc.1 ++ (listChunks bits_per_challenge db.1).take challenges_to_take,
   acc.2 ++ (partition * (dpp : F) + (j : F), 1, digest_index) :: db.2)

/-- `gen_challenge_bits` from gadgets.rs: derive this partition's
challenge-bit groups from `comm_r_new` and the partition index. -/
def gen_challenge_bits (hash2 : F → F → F) (comm_r_new partition : F)
    (challenges bits_per_challenge : Nat) :
    List (List Bool) × List Constraint :=
  (List.range (digestsPerPartition challenges bits_per_challenge)).foldl
    (genStep hash2 comm_r_new partition challenges bits_per_challenge
      (digestsPerPartition challenges bits_per_challenge)) ([], [])

/-- Modelled from the spec: the bit-packing gadget (bellperson multipack
`pack_bits`, an external collaborator): the field element whose value packs
the boolean-wire sequence, bit `i` weighted by `2 ^ i`. -/
def pack_bits (bits : List Bool) : F := lcOfBits bits

/-- `get_challenge_high_bits` from gadgets.rs: for each `(h, h_select_bit)`
pair, pack the `h` high bits of the challenge (the tail of the little-endian
bit vector) and multiply the packed value by the selector bit with one
multiplication constraint, then allocate the sum of all the products and
tie it to that sum with one final constraint.  The source asserts that the
selector and height lists have equal length, slices
`c_bits[c_bit_len - h..]` (a panic when `h` exceeds the bit length), and
reads the first product when computing the sum (a panic on an empty height
list); all three panics are modelled by the guard. -/
def get_challenge_high_bits (c_bits h_select_bits : List Bool)
    (hs : List Nat) : Option (F × List Constraint) :=
  if h_select_bits.length = hs.length ∧
      (hs.all fun h => h ≤ c_bits.length) ∧ hs ≠ [] then
    let n := c_bits.length
    let vals := (hs.zip h_select_bits).map fun p =>
      if p.2 then pack_bits (c_bits.drop (n - p.1)) else 0
    let cs := (hs.zip h_select_bits).map fun p =>
      (pack_bits (c_bits.drop (n - p.1)), if p.2 then (1 : F) else 0,
       if p.2 then pack_bits (c_bits.drop (n - p.1)) else 0)
    some (vals.sum, cs ++ [(vals.sum, 1, vals.sum)])
  else none

/-- A concrete stand-in for the two-input hash gadget, used to instantiate
theorems with hypotheses at concrete inputs. -/
def hash2Ex : F → F → F := fun a b => a + 2 * b + 1

/-- `usize::trailing_zeros`: the number of trailing zero bits in the 64-bit
representation (64 for zero). -/
def trailingZeros (n : Nat) : Nat :=
  ((List.range 64).takeWhile (fun i => !(n.testBit i))).length

/-- Modelled from the spec: the insertion gadget
(storage-proofs-core `gadgets::insertion::insert`, outside this source
file): given a node, a little-endian index as boolean wires, and the
`arity - 1` siblings, return the `arity`-length ordered list with the node
inserted at the index position. -/
def insertAt (node : F) (indexBits : List Bool) (siblings : List F) :
    List F :=
  siblings.take (natOfBits indexBits) ++
    node :: siblings.drop (natOfBits indexBits)

/-- One level of `por_no_challenge_input`: pull the next path element
(panic when exhausted), check its sibling count against `arity - 1`
(assert), consume `bitLen` challenge bits as the insertion index (panic
when exhausted), insert the current node among the siblings, and hash the
`arity`-length preimage with the height-keyed multi-input hash gadget.
The state is (current node, height, remaining path, remaining bits). -/
def porStep (hm : Nat → List F → Nat → F) (arity bitLen : Nat)
    (st : F × Nat × List (List F) × List Bool) :
    Option (F × Nat × List (List F) × List Bool) :=
  match st with
  | (cur, height, path, bits) =>
      match path with
      | [] => none
      | sibs :: path2 =>
          if sibs.length = arity - 1 ∧ bitLen ≤ bits.length then
            some (hm arity (insertAt cur (bits.take bitLen) sibs) height,
              height + 1, path2, bits.drop bitLen)
          else none

/-- The base-tree loop of `por_no_challenge_input`, iterated `n` times. -/
def porLoop (hm : Nat → List F → Nat → F) (arity bitLen : Nat) :
    Nat → (F × Nat × List (List F) × List Bool) →
    Option (F × Nat × List (List F) × List Bool)
  | 0, st => some st
  | n + 1, st => (porStep hm arity bitLen st).bind (porLoop hm arity bitLen n)

/-- `por_no_challenge_input` from gadgets.rs, for a tree shape with the
given base/sub/top arities and an abstract height-keyed multi-input hash
gadget `hm` (arity, preimage, height): hash the leading path elements
having `base_arity - 1` siblings as base-tree levels, then one sub-tree and
one top-tree level when those arities are nonzero, assert that the
challenge bits are exactly exhausted, and enforce the single equality
constraint between the computed root and the provided root. -/
def por (hm : Nat → List F → Nat → F) (base sub top : Nat)
    (c_bits : List Bool) (leaf : F) (path_values : List (List F))
    (root : F) : Option (List Constraint) :=
  (porLoop hm base (trailingZeros base)
      ((path_values.takeWhile (fun s => s.length == base - 1)).length)
      (leaf, 0, path_values, c_bits)).bind fun st1 =>
  (if 0 < sub then porStep hm sub (trailingZeros sub) st1
   else some st1).bind fun st2 =>
  (if 0 < top then porStep hm top (trailingZeros top) st2
   else some st2).bind fun st3 =>
  if st3.2.2.2.isEmpty then some [(st3.1, 1, root)] else none

/-- The level walk described by the spec: at each level
(arity, bit count, siblings), consume the bit count as the insertion
index, insert the current node among the siblings, hash the `arity`-length
preimage keyed by the height, and continue with the result. -/
def walk (hm : Nat → List F → Nat → F) :
    List (Nat × Nat × List F) → List Bool → F → Nat → F
  | [], _, cur, _ => cur
  | (ar, bl, sibs) :: ls, bits, cur, h =>
      walk hm ls (bits.drop bl)
        (hm ar (insertAt cur (bits.take bl) sibs) h) (h + 1)

/-- A concrete stand-in for the multi-input hash gadget, used to
instantiate theorems with hypotheses at concrete inputs. -/
def hashMultiEx : Nat → List F → Nat → F :=
  fun ar l h => l.sum + (ar : F) + (h : F)

/-- One pairwise-hash round of `apex_por`: Rust `chunks(2)` with
`siblings[1]`, which panics (none) when a chunk has a single element. -/
def apexRound (h2 : F → F → F) : List F → Option (List F)
  | [] => some []
  | [_] => none
  | a :: b :: rest => (apexRound h2 rest).map (fun r => h2 a b :: r)

/-- The apex-tree generation loop of `apex_por`: `rounds` pairwise-hash
rounds, keeping the current row. -/
def apexIter (h2 : F → F → F) : Nat → List F → Option (List F)
  | 0, row => some row
  | n + 1, row => (apexRound h2 row).bind (apexIter h2 n)

/-- `apex_por` from gadgets.rs: build the apex tree bottom-up with
`apex_leafs.len().trailing_zeros()` pairwise-hash rounds using the
two-input hash gadget, read this partition's apex root as the first entry
of the final row (a panic when that row is empty), and delegate to
`por_no_challenge_input` on `TreeD` — the binary tree shape with base
arity 2 and no sub/top trees (modelled from the spec: the `TreeD` type
lives outside this source file; the spec describes its partition path as
one through a base-arity-2 tree). -/
def apex_por (h2 : F → F → F) (hm : Nat → List F → Nat → F)
    (apex_leafs : List F) (partition_bits : List Bool)
    (partition_path : List (List F)) (comm_d : F) :
    Option (List Constraint) :=
  (apexIter h2 (trailingZeros apex_leafs.length) apex_leafs).bind
    fun lastRow =>
      match lastRow with
      | [] => none
      | label :: _ =>
          por hm 2 0 0 partition_bits label partition_path comm_d

/-- One native (non-circuit) pairwise-hash round: adjacent pairs hashed,
a trailing unpaired element dropped (never hit on power-of-two rows). -/
def pairRound (h2 : F → F → F) : List F → List F
  | a :: b :: rest => h2 a b :: pairRound h2 rest
  | _ => []

/-- Fuel-driven native pairwise-hash reduction of a leaf batch down to a
single value; the fuel only needs to cover the number of rounds. -/
def nativeReduceFuel (h2 : F → F → F) : Nat → List F → F
  | _, [] => 0
  | _, [x] => x
  | 0, _ => 0
  | fuel + 1, a :: b :: rest =>
      nativeReduceFuel h2 fuel (pairRound h2 (a :: b :: rest))

/-- The native (non-circuit) pairwise-hash reduction of a leaf batch. -/
def nativeReduce (h2 : F → F → F) (l : List F) : F :=
  nativeReduceFuel h2 l.length l

lemma natToBitsLE_length (n m : Nat) : (natToBitsLE n m).length = n := by
  induction n generalizing m with
  | zero => rfl
  | succ n ih => simp [natToBitsLE, ih]

lemma natOfBits_natToBitsLE (n m : Nat) :
    natOfBits (natToBitsLE n m) = m % 2 ^ n := by
  induction n generalizing m with
  | zero => simp [natToBitsLE, natOfBits, Nat.mod_one]
  | succ n ih =>
      have hb : (m % 2 == 1).toNat = m % 2 := by
        rcases Nat.mod_two_eq_zero_or_one m with h | h <;> simp [h]
      have hsplit : m % 2 ^ (n + 1) = m % 2 + 2 * (m / 2 % 2 ^ n) := by
        conv_lhs => rw [pow_succ, mul_comm, Nat.mod_mul]
      simp [natToBitsLE, natOfBits, ih, hb, hsplit]

lemma lcOfBits_cast (bs : List Bool) : lcOfBits bs = (natOfBits bs : F) := by
  induction bs with
  | nil => simp [lcOfBits, natOfBits]
  | cons b bs ih =>
      cases b <;> simp [lcOfBits, natOfBits, ih]

set_option maxRecDepth 4000 in
/-- Claim C4 (code bug): the source's own comment (gadgets.rs:25) asserts
the constraint `(2^0 * bits[0] + ... + 2^(n-1) * bits[n]) * 1 == num`, but
the weight of bit `i` is computed as `Fr::from(1u64 << i)`, whose u64
shift wraps for `i >= 64` in release builds (debug builds panic).  At
`num = 2^64` the gadget still produces 255 bits and one constraint, but
that constraint's left side evaluates to `2^(64 % 64) = 1`, not `num` —
while the exact recomposition the claim (and the comment) describe does
recover `num`. -/
theorem c4_weight_wrap :
    (allocated_num_to_allocated_bits ((2 ^ 64 : Nat) : F)).1.length =
      255 ∧
    (allocated_num_to_allocated_bits ((2 ^ 64 : Nat) : F)).2 =
      [(lcOfBitsU64 0 (fieldIntoAllocatedBitsLe ((2 ^ 64 : Nat) : F)), 1,
        ((2 ^ 64 : Nat) : F))] ∧
    lcOfBitsU64 0 (fieldIntoAllocatedBitsLe ((2 ^ 64 : Nat) : F)) = 1 ∧
    (1 : F) ≠ ((2 ^ 64 : Nat) : F) ∧
    lcOfBits (fieldIntoAllocatedBitsLe ((2 ^ 64 : Nat) : F)) =
      ((2 ^ 64 : Nat) : F) :=
  ⟨by decide, rfl, by decide, by decide, by decide⟩

/-- Claim C3: `label_r_new` returns exactly
`label_r_old + label_d_new * rho`, enforcing one multiplication constraint
(for `label_d_new * rho`) followed by one linear constraint (the affine
identity). -/
theorem c3_label_r_new_affine (label_r_old label_d_new rho : F) :
    (label_r_new label_r_old label_d_new rho).1 =
      label_r_old + label_d_new * rho ∧
    (label_r_new label_r_old label_d_new rho).2 =
      [(label_d_new, rho, label_d_new * rho),
       (label_r_old + label_d_new * rho, 1,
        label_r_old + label_d_new * rho)] :=
  ⟨rfl, rfl⟩

lemma listChunks_nil {α : Type} (k : Nat) : listChunks (α := α) k [] = [] := by
  rw [listChunks]

lemma listChunks_cons {α : Type} (k : Nat) (a : α) (l : List α) :
    listChunks k (a :: l) =
      (a :: l.take (k - 1)) :: listChunks k (l.drop (k - 1)) := by
  rw [listChunks]

/-- Taking `t` chunks of size `k` from a list with at least `t * k`
elements yields exactly `t` groups, each of length `k`. -/
lemma listChunks_take_spec {α : Type} (k : Nat) (hk : 0 < k) :
    ∀ (t : Nat) (l : List α), t * k ≤ l.length →
      ((listChunks k l).take t).length = t ∧
        ∀ g ∈ (listChunks k l).take t, g.length = k := by
  intro t
  induction t with
  | zero => intro l _; simp
  | succ t ih =>
      intro l hlen
      match l with
      | [] => simp at hlen; omega
      | a :: l =>
          simp only [List.length_cons] at hlen
          have hmul : (t + 1) * k = t * k + k := by ring
          have hl : k - 1 ≤ l.length := by omega
          have hrest : t * k ≤ (l.drop (k - 1)).length := by
            simp only [List.length_drop]
            omega
          obtain ⟨ihlen, ihall⟩ := ih (l.drop (k - 1)) hrest
          rw [listChunks_cons]
          refine ⟨?_, ?_⟩
          · simp [List.take_succ_cons, ihlen]
          · intro g hg
            rw [List.take_succ_cons] at hg
            rcases List.mem_cons.mp hg with hg | hg
            · subst hg
              simp [List.length_take]
              omega
            · exact ihall g hg

/-- Bounds for the exact ceiling `(c + d - 1) / d` of `c / d`. -/
lemma ceilDiv_bounds (c d : Nat) (hc : 1 ≤ c) (hd : 1 ≤ d) :
    1 ≤ (c + d - 1) / d ∧ c ≤ ((c + d - 1) / d) * d ∧
      (((c + d - 1) / d) - 1) * d < c := by
  have hmod := Nat.div_add_mod (c + d - 1) d
  have hlt : (c + d - 1) % d < d := Nat.mod_lt _ hd
  have hcomm : d * ((c + d - 1) / d) = ((c + d - 1) / d) * d :=
    Nat.mul_comm _ _
  rw [hcomm] at hmod
  have hsub : (((c + d - 1) / d) - 1) * d = ((c + d - 1) / d) * d - d := by
    rw [Nat.sub_mul, one_mul]
  have hq1 : 1 ≤ (c + d - 1) / d := by
    rw [Nat.one_le_div_iff hd]; omega
  refine ⟨hq1, ?_, ?_⟩
  · generalize ((c + d - 1) / d) * d = x at hmod ⊢
    omega
  · rw [hsub]
    generalize ((c + d - 1) / d) * d = x at hmod ⊢
    omega

/-- Unfolding of one digest-loop iteration of `gen_challenge_bits`. -/
lemma genStep_eq (hash2 : F → F → F) (comm_r_new partition : F)
    (challenges bits_per_challenge dpp : Nat)
    (acc : List (List Bool) × List Constraint) (j : Nat) :
    genStep hash2 comm_r_new partition challenges bits_per_challenge dpp
        acc j =
      (acc.1 ++ (listChunks bits_per_challenge
          (fieldIntoAllocatedBitsLe
            (hash2 comm_r_new (partition * (dpp : F) + (j : F))))).take
          (if j = dpp - 1 then challenges - acc.1.length
           else challengesPerDigest bits_per_challenge),
       acc.2 ++
         [(partition * (dpp : F) + (j : F), 1,
           partition * (dpp : F) + (j : F)),
          (lcOfBitsU64 0 (fieldIntoAllocatedBitsLe
             (hash2 comm_r_new (partition * (dpp : F) + (j : F)))), 1,
           hash2 comm_r_new (partition * (dpp : F) + (j : F)))]) := rfl

lemma fieldIntoAllocatedBitsLe_length (x : F) :
    (fieldIntoAllocatedBitsLe x).length = 255 := by
  simp [fieldIntoAllocatedBitsLe, natToBitsLE_length]

/-- The length of a chunk decomposition. -/
lemma listChunks_length {α : Type} (k : Nat) (hk : 0 < k) :
    ∀ l : List α, (listChunks k l).length = (l.length + k - 1) / k
  | [] => by
      rw [listChunks_nil, List.length_nil, List.length_nil]
      exact (Nat.div_eq_of_lt (by omega)).symm
  | a :: l => by
      have ih := listChunks_length k hk (l.drop (k - 1))
      rw [listChunks_cons, List.length_cons, List.length_cons, ih,
        List.length_drop]
      rcases le_or_lt (k - 1) l.length with h | h
      · have e1 : l.length - (k - 1) + k - 1 = l.length := by omega
        have e2 : l.length + 1 + k - 1 = l.length + k := by omega
        rw [e1, e2, Nat.add_div_right _ hk]
      · have e1 : l.length - (k - 1) + k - 1 = k - 1 := by omega
        have e2 : l.length + 1 + k - 1 = l.length + k := by omega
        rw [e1, e2, Nat.add_div_right _ hk,
          Nat.div_eq_of_lt (by omega : k - 1 < k),
          Nat.div_eq_of_lt (by omega : l.length < k)]
termination_by l => l.length
decreasing_by simp [List.length_drop]; omega

/-- The chunk decomposition of a 255-bit digest into 254-bit groups:
one full group and one truncated single-bit group. -/
lemma listChunks_two (l : List Bool) (hl : l.length = 255) :
    ∃ c0 c1, listChunks 254 l = [c0, c1] ∧ c0.length = 254 ∧
      c1.length = 1 := by
  match l, hl with
  | [], hl => simp at hl
  | a :: l, hl =>
      have hl2 : l.length = 254 := by
        simp only [List.length_cons] at hl
        omega
      have hd : (l.drop (254 - 1)).length = 1 := by
        rw [List.length_drop, hl2]
      obtain ⟨b, hb⟩ := List.length_eq_one.mp hd
      refine ⟨a :: l.take (254 - 1), [b], ?_, ?_, rfl⟩
      · rw [listChunks_cons, hb, listChunks_cons]
        simp [listChunks_nil]
      · rw [List.length_cons, List.length_take, hl2]
        norm_num

/-- The digest loop of `gen_challenge_bits` before its final iteration:
every non-final digest contributes exactly `challenges_per_digest`
groups, each of `bits_per_challenge` bits. -/
lemma gen_loop_nonfinal (hash2 : F → F → F) (comm_r_new partition : F)
    (challenges bits_per_challenge dpp : Nat)
    (hcpd : 1 ≤ challengesPerDigest bits_per_challenge) :
    ∀ k, k ≤ dpp - 1 →
      (((List.range k).foldl
          (genStep hash2 comm_r_new partition challenges
            bits_per_challenge dpp) ([], [])).1.length =
        k * challengesPerDigest bits_per_challenge) ∧
      ∀ g ∈ ((List.range k).foldl
          (genStep hash2 comm_r_new partition challenges
            bits_per_challenge dpp) ([], [])).1,
        g.length = bits_per_challenge := by
  have hbpc : 0 < bits_per_challenge := by
    by_contra h
    have h0 : bits_per_challenge = 0 := by omega
    simp [challengesPerDigest, h0] at hcpd
  have hcap : challengesPerDigest bits_per_challenge * bits_per_challenge
      ≤ 254 := Nat.div_mul_le_self 254 bits_per_challenge
  intro k
  induction k with
  | zero => intro _; simp
  | succ k ih =>
      intro hk
      obtain ⟨ihlen, ihall⟩ := ih (by omega)
      rw [List.range_succ, List.foldl_append, List.foldl_cons,
        List.foldl_nil]
      set st := (List.range k).foldl
        (genStep hash2 comm_r_new partition challenges bits_per_challenge
          dpp) ([], []) with hst
      rw [genStep_eq]
      have hbits :
          (fieldIntoAllocatedBitsLe
            (hash2 comm_r_new (partition * (dpp : F) + (k : F)))).length
            = 255 := fieldIntoAllocatedBitsLe_length _
      have hlast : ¬ k = dpp - 1 := by omega
      rw [if_neg hlast]
      obtain ⟨hlen2, hall2⟩ :=
        listChunks_take_spec bits_per_challenge hbpc
          (challengesPerDigest bits_per_challenge) _
          (by rw [hbits]; omega)
      refine ⟨?_, ?_⟩
      · rw [List.length_append, hlen2, ihlen, Nat.succ_mul]
      · intro g hg
        rcases List.mem_append.mp hg with hg | hg
        · exact ihall g hg
        · exact hall2 g hg

/-- Splitting the groups of `gen_challenge_bits` into the non-final
digests' groups followed by the final digest's take of the remaining
groups. -/
lemma gen_groups_split (hash2 : F → F → F) (comm_r_new partition : F)
    (challenges bits_per_challenge : Nat)
    (hcpd : 1 ≤ challengesPerDigest bits_per_challenge)
    (hdpp1 : 1 ≤ digestsPerPartition challenges bits_per_challenge) :
    (gen_challenge_bits hash2 comm_r_new partition challenges
        bits_per_challenge).1 =
      ((List.range
          (digestsPerPartition challenges bits_per_challenge - 1)).foldl
        (genStep hash2 comm_r_new partition challenges bits_per_challenge
          (digestsPerPartition challenges bits_per_challenge))
        ([], [])).1 ++
      (listChunks bits_per_challenge
        (fieldIntoAllocatedBitsLe (hash2 comm_r_new
          (partition *
            (digestsPerPartition challenges bits_per_challenge : F) +
            ((digestsPerPartition challenges bits_per_challenge - 1 :
              Nat) : F))))).take
        (challenges -
          (digestsPerPartition challenges bits_per_challenge - 1) *
            challengesPerDigest bits_per_challenge) := by
  have hr : List.range (digestsPerPartition challenges
      bits_per_challenge) =
      List.range (digestsPerPartition challenges bits_per_challenge - 1)
        ++ [digestsPerPartition challenges bits_per_challenge - 1] := by
    conv_lhs => rw [show digestsPerPartition challenges
      bits_per_challenge =
      (digestsPerPartition challenges bits_per_challenge - 1) + 1 from by
        omega]
    rw [List.range_succ]
  rw [gen_challenge_bits, hr, List.foldl_append, List.foldl_cons,
    List.foldl_nil, genStep_eq, if_pos rfl,
    (gen_loop_nonfinal hash2 comm_r_new partition challenges
      bits_per_challenge
      (digestsPerPartition challenges bits_per_challenge) hcpd
      (digestsPerPartition challenges bits_per_challenge - 1) le_rfl).1]

/-- The constraints emitted across all digest-loop iterations of
`gen_challenge_bits`. -/
lemma gen_loop_constraints (hash2 : F → F → F) (comm_r_new partition : F)
    (challenges bits_per_challenge dpp : Nat) :
    ∀ (l : List Nat) (acc : List (List Bool) × List Constraint),
      (l.foldl (genStep hash2 comm_r_new partition challenges
          bits_per_challenge dpp) acc).2 =
        acc.2 ++ l.flatMap (fun j =>
          [(partition * (dpp : F) + (j : F), 1,
            partition * (dpp : F) + (j : F)),
           (lcOfBitsU64 0 (fieldIntoAllocatedBitsLe
              (hash2 comm_r_new (partition * (dpp : F) + (j : F)))), 1,
            hash2 comm_r_new (partition * (dpp : F) + (j : F)))]) := by
  intro l
  induction l with
  | nil => intro acc; simp
  | cons j l ih =>
      intro acc
      rw [List.foldl_cons, ih, genStep_eq]
      simp [List.append_assoc]

/-- Claim C5: per digest index `j`, `gen_challenge_bits` enforces exactly
one linear constraint making the allocated `digest_index` equal
`partition * digests_per_partition + j`, and the `j`-th digest is the
two-input hash of `(comm_r_new, digest_index)` (whose 255-bit decomposition
adds the one recomposition constraint of the bit decomposer); the derived
digest indices therefore change deterministically with `partition` per that
formula. -/
theorem c5_digest_index_constraints (hash2 : F → F → F)
    (comm_r_new partition : F) (challenges bits_per_challenge : Nat)
    (hbpc : 0 < bits_per_challenge) :
    (gen_challenge_bits hash2 comm_r_new partition challenges
        bits_per_challenge).2 =
      (List.range
          (digestsPerPartition challenges bits_per_challenge)).flatMap
        (fun j =>
          [(partition *
              (digestsPerPartition challenges bits_per_challenge : F) +
              (j : F), 1,
            partition *
              (digestsPerPartition challenges bits_per_challenge : F) +
              (j : F)),
           (lcOfBitsU64 0 (fieldIntoAllocatedBitsLe (hash2 comm_r_new
              (partition *
                (digestsPerPartition challenges bits_per_challenge : F) +
                (j : F)))), 1,
            hash2 comm_r_new
              (partition *
                (digestsPerPartition challenges bits_per_challenge : F) +
                (j : F)))]) := by
  rw [gen_challenge_bits, gen_loop_constraints]
  simp

/-- Witness for C5 at `challenges = 5`, `bits_per_challenge = 10`. -/
theorem c5_digest_index_constraints_witness :
    0 < 10 ∧
    (gen_challenge_bits hash2Ex 0 0 5 10).2 =
      (List.range (digestsPerPartition 5 10)).flatMap
        (fun j =>
          [((0 : F) * (digestsPerPartition 5 10 : F) + (j : F), 1,
            (0 : F) * (digestsPerPartition 5 10 : F) + (j : F)),
           (lcOfBitsU64 0 (fieldIntoAllocatedBitsLe (hash2Ex 0
              ((0 : F) * (digestsPerPartition 5 10 : F) + (j : F)))), 1,
            hash2Ex 0
              ((0 : F) * (digestsPerPartition 5 10 : F) + (j : F)))]) :=
  ⟨by decide, c5_digest_index_constraints hash2Ex 0 0 5 10 (by decide)⟩

/-- Counterexample to claim C6 as stated: at `challenges = 2^25 + 2` and
`bits_per_challenge = 127` (so `challenges_per_digest = 2`), the f32
conversion of the challenge count rounds `2^25 + 2` to `2^25` (ties to
even), the computed `digests_per_partition` is `2^24` instead of the exact
ceiling `2^24 + 1`, and the final digest can supply only 3 of the 4
chunks still needed (a 255-bit digest has 3 chunks of size 127), so only
`2^25 + 1` groups are returned instead of `challenges`. -/
theorem c6_counterexample :
    (1 ≤ 33554434 ∧ 1 ≤ challengesPerDigest 127) ∧
    (gen_challenge_bits hash2Ex 0 0 33554434 127).1.length = 33554433 ∧
    (33554433 : Nat) ≠ 33554434 := by
  have hv1 : digestsPerPartition 33554434 127 = 16777216 := by decide
  have hv2 : challengesPerDigest 127 = 2 := by decide
  refine ⟨⟨by decide, by decide⟩, ?_, by decide⟩
  rw [gen_groups_split hash2Ex 0 0 33554434 127 (by decide) (by decide),
    List.length_append,
    (gen_loop_nonfinal hash2Ex 0 0 33554434 127
      (digestsPerPartition 33554434 127) (by decide)
      (digestsPerPartition 33554434 127 - 1) le_rfl).1,
    List.length_take,
    listChunks_length 127 (by omega), fieldIntoAllocatedBitsLe_length,
    hv1, hv2]
  omega

/-- Claim C6 (amended): with at least one challenge, at least one
challenge per digest, and the f32-computed `digests_per_partition` equal
to the exact ceiling of `challenges / challenges_per_digest` (true
throughout the program's real domain, `challenges ≤ 2^24`),
`gen_challenge_bits` returns exactly `challenges` challenge-bit groups:
each non-final digest contributes `challenges_per_digest` groups and the
final digest only the remainder. -/
theorem c6_challenge_count (hash2 : F → F → F) (comm_r_new partition : F)
    (challenges bits_per_challenge : Nat) (hch : 1 ≤ challenges)
    (hcpd : 1 ≤ challengesPerDigest bits_per_challenge)
    (hdpp : digestsPerPartition challenges bits_per_challenge =
      (challenges + challengesPerDigest bits_per_challenge - 1) /
        challengesPerDigest bits_per_challenge) :
    (gen_challenge_bits hash2 comm_r_new partition challenges
        bits_per_challenge).1.length = challenges := by
  have hbpc : 0 < bits_per_challenge := by
    by_contra h
    have h0 : bits_per_challenge = 0 := by omega
    simp [challengesPerDigest, h0] at hcpd
  have hcap : challengesPerDigest bits_per_challenge * bits_per_challenge
      ≤ 254 := Nat.div_mul_le_self 254 bits_per_challenge
  obtain ⟨h1, h2, h3⟩ :=
    ceilDiv_bounds challenges (challengesPerDigest bits_per_challenge)
      hch hcpd
  rw [← hdpp] at h1 h2 h3
  have hdppmul : digestsPerPartition challenges bits_per_challenge *
      challengesPerDigest bits_per_challenge =
      (digestsPerPartition challenges bits_per_challenge - 1) *
        challengesPerDigest bits_per_challenge +
        challengesPerDigest bits_per_challenge := by
    conv_lhs => rw [show digestsPerPartition challenges
      bits_per_challenge =
      (digestsPerPartition challenges bits_per_challenge - 1) + 1 from by
        omega]
    rw [Nat.succ_mul]
  have htle : challenges -
      (digestsPerPartition challenges bits_per_challenge - 1) *
        challengesPerDigest bits_per_challenge ≤
      challengesPerDigest bits_per_challenge := by omega
  have htake : (challenges -
      (digestsPerPartition challenges bits_per_challenge - 1) *
        challengesPerDigest bits_per_challenge) * bits_per_challenge ≤
      255 := by
    calc (challenges -
        (digestsPerPartition challenges bits_per_challenge - 1) *
          challengesPerDigest bits_per_challenge) * bits_per_challenge
        ≤ challengesPerDigest bits_per_challenge * bits_per_challenge :=
          Nat.mul_le_mul_right _ htle
      _ ≤ 254 := hcap
      _ ≤ 255 := by omega
  obtain ⟨hlen, _⟩ := listChunks_take_spec bits_per_challenge hbpc
    (challenges -
      (digestsPerPartition challenges bits_per_challenge - 1) *
        challengesPerDigest bits_per_challenge)
    (fieldIntoAllocatedBitsLe (hash2 comm_r_new
      (partition *
        (digestsPerPartition challenges bits_per_challenge : F) +
        ((digestsPerPartition challenges bits_per_challenge - 1 :
          Nat) : F))))
    (by rw [fieldIntoAllocatedBitsLe_length]; exact htake)
  rw [gen_groups_split hash2 comm_r_new partition challenges
      bits_per_challenge hcpd h1, List.length_append,
    (gen_loop_nonfinal hash2 comm_r_new partition challenges
      bits_per_challenge
      (digestsPerPartition challenges bits_per_challenge) hcpd
      (digestsPerPartition challenges bits_per_challenge - 1) le_rfl).1,
    hlen]
  omega

/-- Witness for the amended C6, checking the spec scenario
`challenges = 5`, `bits_per_challenge = 10`, capacity 254: 25 challenges
per digest, a single digest (where the f32 and exact ceilings agree), and
exactly 5 groups. -/
theorem c6_challenge_count_witness :
    (1 ≤ 5 ∧ 1 ≤ challengesPerDigest 10 ∧ challengesPerDigest 10 = 25 ∧
      digestsPerPartition 5 10 = 1 ∧
      digestsPerPartition 5 10 =
        (5 + challengesPerDigest 10 - 1) / challengesPerDigest 10) ∧
    (gen_challenge_bits hash2Ex 0 0 5 10).1.length = 5 :=
  ⟨by decide,
    c6_challenge_count hash2Ex 0 0 5 10 (by decide) (by decide)
      (by decide)⟩

/-- Counterexample to claim C10 as stated: at `challenges = 2^24 + 1` and
`bits_per_challenge = 254` (so `challenges_per_digest = 1`), the f32
conversion rounds `2^24 + 1` to `2^24` (ties to even), so
`digests_per_partition = 2^24` and the final digest must supply two
groups: the chunk decomposition of its 255-bit expansion is one 254-bit
group followed by a truncated 1-bit group, which is returned. -/
theorem c10_counterexample :
    (1 ≤ 16777217 ∧ 1 ≤ challengesPerDigest 254) ∧
    ¬(∀ g ∈ (gen_challenge_bits hash2Ex 0 0 16777217 254).1,
        g.length = 254) := by
  have hv1 : digestsPerPartition 16777217 254 = 16777216 := by decide
  have hv2 : challengesPerDigest 254 = 1 := by decide
  refine ⟨⟨by decide, by decide⟩, ?_⟩
  intro hall
  have hsplit := gen_groups_split hash2Ex 0 0 16777217 254 (by decide)
    (by decide)
  rw [hv1, hv2] at hsplit
  have ht : (16777217 - (16777216 - 1) * 1) = 2 := by norm_num
  rw [ht] at hsplit
  obtain ⟨c0, c1, hc, hc0, hc1⟩ := listChunks_two
    (fieldIntoAllocatedBitsLe (hash2Ex 0
      (0 * ((16777216 : Nat) : F) + ((16777216 - 1 : Nat) : F))))
    (fieldIntoAllocatedBitsLe_length _)
  rw [hc] at hsplit
  have hmem : c1 ∈ (gen_challenge_bits hash2Ex 0 0 16777217 254).1 := by
    rw [hsplit]
    exact List.mem_append.mpr (Or.inr (by simp))
  have := hall c1 hmem
  omega

/-- Claim C10 (amended): with at least one challenge, at least one
challenge per digest, and the f32-computed `digests_per_partition` equal
to the exact ceiling of `challenges / challenges_per_digest` (true
throughout the program's real domain, `challenges ≤ 2^24`), every
challenge-bit group returned by `gen_challenge_bits` has exactly
`bits_per_challenge` bits: no truncated final chunk of a 255-bit digest
decomposition is ever taken, because
`challenges_per_digest * bits_per_challenge ≤ 254 < 255`. -/
theorem c10_group_length (hash2 : F → F → F) (comm_r_new partition : F)
    (challenges bits_per_challenge : Nat) (hch : 1 ≤ challenges)
    (hcpd : 1 ≤ challengesPerDigest bits_per_challenge)
    (hdpp : digestsPerPartition challenges bits_per_challenge =
      (challenges + challengesPerDigest bits_per_challenge - 1) /
        challengesPerDigest bits_per_challenge) :
    ∀ g ∈ (gen_challenge_bits hash2 comm_r_new partition challenges
        bits_per_challenge).1, g.length = bits_per_challenge := by
  have hbpc : 0 < bits_per_challenge := by
    by_contra h
    have h0 : bits_per_challenge = 0 := by omega
    simp [challengesPerDigest, h0] at hcpd
  have hcap : challengesPerDigest bits_per_challenge * bits_per_challenge
      ≤ 254 := Nat.div_mul_le_self 254 bits_per_challenge
  obtain ⟨h1, h2, h3⟩ :=
    ceilDiv_bounds challenges (challengesPerDigest bits_per_challenge)
      hch hcpd
  rw [← hdpp] at h1 h2 h3
  have hdppmul : digestsPerPartition challenges bits_per_challenge *
      challengesPerDigest bits_per_challenge =
      (digestsPerPartition challenges bits_per_challenge - 1) *
        challengesPerDigest bits_per_challenge +
        challengesPerDigest bits_per_challenge := by
    conv_lhs => rw [show digestsPerPartition challenges
      bits_per_challenge =
      (digestsPerPartition challenges bits_per_challenge - 1) + 1 from by
        omega]
    rw [Nat.succ_mul]
  have htle : challenges -
      (digestsPerPartition challenges bits_per_challenge - 1) *
        challengesPerDigest bits_per_challenge ≤
      challengesPerDigest bits_per_challenge := by omega
  have htake : (challenges -
      (digestsPerPartition challenges bits_per_challenge - 1) *
        challengesPerDigest bits_per_challenge) * bits_per_challenge ≤
      255 := by
    calc (challenges -
        (digestsPerPartition challenges bits_per_challenge - 1) *
          challengesPerDigest bits_per_challenge) * bits_per_challenge
        ≤ challengesPerDigest bits_per_challenge * bits_per_challenge :=
          Nat.mul_le_mul_right _ htle
      _ ≤ 254 := hcap
      _ ≤ 255 := by omega
  intro g hg
  rw [gen_groups_split hash2 comm_r_new partition challenges
    bits_per_challenge hcpd h1] at hg
  rcases List.mem_append.mp hg with hg | hg
  · exact (gen_loop_nonfinal hash2 comm_r_new partition challenges
      bits_per_challenge
      (digestsPerPartition challenges bits_per_challenge) hcpd
      (digestsPerPartition challenges bits_per_challenge - 1)
      le_rfl).2 g hg
  · exact (listChunks_take_spec bits_per_challenge hbpc
      (challenges -
        (digestsPerPartition challenges bits_per_challenge - 1) *
          challengesPerDigest bits_per_challenge) _
      (by rw [fieldIntoAllocatedBitsLe_length]; exact htake)).2 g hg

/-- Witness for the amended C10 at `challenges = 5`,
`bits_per_challenge = 10`. -/
theorem c10_group_length_witness :
    (1 ≤ 5 ∧ 1 ≤ challengesPerDigest 10 ∧
      digestsPerPartition 5 10 =
        (5 + challengesPerDigest 10 - 1) / challengesPerDigest 10) ∧
    ∀ g ∈ (gen_challenge_bits hash2Ex 0 0 5 10).1, g.length = 10 :=
  ⟨by decide,
    c10_group_length hash2Ex 0 0 5 10 (by decide) (by decide)
      (by decide)⟩

/-- Claim C9 (code bug): the spec defines `digests_per_partition` as the
exact ceiling of `challenges / challenges_per_digest`, but the source
computes it through f32, and at `challenges = 2^24 + 1`,
`bits_per_challenge = 254` (so `challenges_per_digest = 1`) the f32
conversion rounds `2^24 + 1` to `2^24` (round to nearest, ties to even),
yielding `2^24` instead of the exact ceiling `2^24 + 1`. -/
theorem c9_f32_ceiling_bug :
    digestsPerPartition 16777217 254 = 16777216 ∧
    (16777217 + challengesPerDigest 254 - 1) / challengesPerDigest 254 =
      16777217 ∧
    (16777216 : Nat) ≠ 16777217 :=
  ⟨by decide, by decide, by decide⟩

lemma sum_zip_replicate_false (g : Nat → F) :
    ∀ (hs : List Nat) (m : Nat),
      ((hs.zip (List.replicate m false)).map
        (fun p => if p.2 then g p.1 else 0)).sum = 0 := by
  intro hs
  induction hs with
  | nil => intro m; simp
  | cons h hs ih =>
      intro m
      match m with
      | 0 => simp
      | m + 1 => simp [List.replicate_succ, ih m]

/-- Summing the selector-masked packed values over a one-hot selector
yields the value at the hot position. -/
lemma onehot_sum (g : Nat → F) :
    ∀ (i : Nat) (hs : List Nat) (m : Nat), hs.length = i + 1 + m →
      ((hs.zip (List.replicate i false ++
          true :: List.replicate m false)).map
        (fun p => if p.2 then g p.1 else 0)).sum = g (hs.getD i 0) := by
  intro i
  induction i with
  | zero =>
      intro hs m hlen
      match hs, hlen with
      | [], hlen => simp only [List.length_nil] at hlen; omega
      | h :: hs, hlen =>
          simp only [List.replicate_zero, List.nil_append, List.zip_cons_cons,
            List.map_cons, List.sum_cons, if_pos, List.getD_cons_zero]
          rw [sum_zip_replicate_false]
          simp
  | succ i ih =>
      intro hs m hlen
      match hs, hlen with
      | [], hlen => simp only [List.length_nil] at hlen; omega
      | h :: hs, hlen =>
          have hlen2 : hs.length = i + 1 + m := by
            simp only [List.length_cons] at hlen
            omega
          simp only [List.replicate_succ, List.cons_append,
            List.zip_cons_cons, List.map_cons, List.sum_cons,
            List.getD_cons_succ]
          rw [ih hs m hlen2]
          simp

/-- Claim C7: over a one-hot selector (hot at position `i`),
`get_challenge_high_bits` outputs exactly the packing of the top
`hs[i]` bits of the challenge bit vector, emitting one multiplication
constraint per `(h, selector)` pair plus one final constraint tying the sum
of the products (which equals the single selected packed value) to the
output. -/
theorem c7_high_bit_selector (c_bits : List Bool) (hs : List Nat)
    (i m : Nat) (hlen : hs.length = i + 1 + m)
    (hall : ∀ h ∈ hs, h ≤ c_bits.length) :
    get_challenge_high_bits c_bits
        (List.replicate i false ++ true :: List.replicate m false) hs =
      some (pack_bits (c_bits.drop (c_bits.length - hs.getD i 0)),
        ((hs.zip (List.replicate i false ++
            true :: List.replicate m false)).map fun p =>
          (pack_bits (c_bits.drop (c_bits.length - p.1)),
           if p.2 then (1 : F) else 0,
           if p.2 then pack_bits (c_bits.drop (c_bits.length - p.1))
           else 0)) ++
        [(pack_bits (c_bits.drop (c_bits.length - hs.getD i 0)), 1,
          pack_bits (c_bits.drop (c_bits.length - hs.getD i 0)))]) := by
  have hsel : (List.replicate i false ++
      true :: List.replicate m false).length = hs.length := by
    simp [hlen]; omega
  have hne : hs ≠ [] := by
    intro h0
    rw [h0] at hlen
    simp only [List.length_nil] at hlen
    omega
  have hallb : hs.all (fun h => h ≤ c_bits.length) = true := by
    rw [List.all_eq_true]
    intro h hmem
    simpa using hall h hmem
  rw [get_challenge_high_bits, if_pos ⟨hsel, hallb, hne⟩]
  simp only [onehot_sum (fun h => pack_bits (c_bits.drop (c_bits.length - h)))
    i hs m hlen]

/-- Witness for C7: challenge bits `[true, false, true, true]`, heights
`[2, 3]`, one-hot selector at position 0; the output packs the top 2 bits. -/
theorem c7_high_bit_selector_witness :
    ([2, 3].length = 0 + 1 + 1 ∧ ∀ h ∈ [2, 3], h ≤ 4) ∧
    get_challenge_high_bits [true, false, true, true]
        (List.replicate 0 false ++ true :: List.replicate 1 false)
        [2, 3] =
      some (pack_bits ([true, false, true, true].drop (4 - 2)),
        (([2, 3].zip (List.replicate 0 false ++
            true :: List.replicate 1 false)).map fun p =>
          (pack_bits ([true, false, true, true].drop (4 - p.1)),
           if p.2 then (1 : F) else 0,
           if p.2 then
             pack_bits ([true, false, true, true].drop (4 - p.1))
           else 0)) ++
        [(pack_bits ([true, false, true, true].drop (4 - 2)), 1,
          pack_bits ([true, false, true, true].drop (4 - 2)))]) :=
  ⟨⟨by decide, by decide⟩,
    c7_high_bit_selector [true, false, true, true] [2, 3] 0 1 (by decide)
      (by decide)⟩

lemma takeWhile_append_all {α : Type} (q : α → Bool) :
    ∀ (l1 l2 : List α), (∀ x ∈ l1, q x = true) →
      (l1 ++ l2).takeWhile q = l1 ++ l2.takeWhile q := by
  intro l1
  induction l1 with
  | nil => intro l2 _; simp
  | cons a l ih =>
      intro l2 hall
      rw [List.cons_append, List.takeWhile_cons,
        if_pos (hall a (by simp)), ih l2 (fun x hx => hall x (by simp [hx]))]
      rfl

lemma takeWhile_cons_false {α : Type} (q : α → Bool) (x : α) (l : List α)
    (hx : q x = false) : (x :: l).takeWhile q = [] := by
  rw [List.takeWhile_cons, if_neg (by simp [hx])]

lemma trailingZeros_two_pow (k : Nat) (hk : k < 64) :
    trailingZeros (2 ^ k) = k := by
  unfold trailingZeros
  rw [show (64 : Nat) = k + (64 - k) from by omega, List.range_add]
  rw [takeWhile_append_all _ _ _ (by
    intro x hx
    rw [List.mem_range] at hx
    simp [Nat.testBit_two_pow_of_ne (by omega : k ≠ x)])]
  obtain ⟨m, hm⟩ : ∃ m, 64 - k = m + 1 := ⟨64 - k - 1, by omega⟩
  rw [hm, List.range_succ_eq_map, List.map_cons,
    takeWhile_cons_false _ _ _ (by simp [Nat.testBit_two_pow_self])]
  simp

lemma walk_append (hm : Nat → List F → Nat → F) :
    ∀ (l1 l2 : List (Nat × Nat × List F)) (bits : List Bool) (cur : F)
      (h : Nat),
      walk hm (l1 ++ l2) bits cur h =
        walk hm l2 (bits.drop ((l1.map fun t => t.2.1).sum))
          (walk hm l1 bits cur h) (h + l1.length) := by
  intro l1
  induction l1 with
  | nil => intro l2 bits cur h; simp [walk]
  | cons t l ih =>
      intro l2 bits cur h
      match t with
      | (ar, bl, sibs) =>
          rw [List.cons_append]
          rw [walk, walk, ih]
          rw [List.drop_drop]
          simp only [List.map_cons, List.sum_cons, List.length_cons]
          rw [show h + 1 + l.length = h + (l.length + 1) from by omega]

lemma sum_map_bitlen (arity bl : Nat) (bp : List (List F)) :
    (((bp.map fun s => (arity, bl, s)).map fun t => t.2.1)).sum =
      bp.length * bl := by
  induction bp with
  | nil => simp
  | cons s bp ih =>
      rw [List.map_cons, List.map_cons, List.sum_cons, ih]
      simp [Nat.succ_mul, Nat.add_comm]

/-- The base-tree loop on a well-formed run of base path elements. -/
lemma porLoop_wf (hm : Nat → List F → Nat → F) (arity bitLen : Nat) :
    ∀ (bp rest : List (List F)) (bits : List Bool) (cur : F) (h : Nat),
      (∀ s ∈ bp, s.length = arity - 1) →
      porLoop hm arity bitLen bp.length (cur, h, bp ++ rest, bits) =
        if bp.length * bitLen ≤ bits.length then
          some (walk hm (bp.map fun s => (arity, bitLen, s)) bits cur h,
            h + bp.length, rest, bits.drop (bp.length * bitLen))
        else none := by
  intro bp
  induction bp with
  | nil =>
      intro rest bits cur h _
      simp [porLoop, walk]
  | cons s bp ih =>
      intro rest bits cur h hall
      have hs : s.length = arity - 1 := hall s (by simp)
      have hall2 : ∀ x ∈ bp, x.length = arity - 1 :=
        fun x hx => hall x (by simp [hx])
      have hmul : (bp.length + 1) * bitLen = bp.length * bitLen + bitLen := by
        ring
      rw [List.length_cons, porLoop, List.cons_append]
      by_cases hb : bitLen ≤ bits.length
      · have hstep :
            porStep hm arity bitLen (cur, h, s :: (bp ++ rest), bits) =
              some (hm arity (insertAt cur (bits.take bitLen) s) h,
                h + 1, bp ++ rest, bits.drop bitLen) := by
          simp [porStep, hs, hb]
        rw [hstep, Option.some_bind,
          ih rest (bits.drop bitLen)
            (hm arity (insertAt cur (bits.take bitLen) s) h) (h + 1) hall2]
        have hcond : bp.length * bitLen ≤ (bits.drop bitLen).length ↔
            (bp.length + 1) * bitLen ≤ bits.length := by
          rw [List.length_drop, hmul]
          generalize bp.length * bitLen = x
          omega
        by_cases hc : (bp.length + 1) * bitLen ≤ bits.length
        · rw [if_pos (hcond.mpr hc), if_pos hc]
          have e1 : walk hm ((s :: bp).map fun s => (arity, bitLen, s))
              bits cur h =
              walk hm (bp.map fun s => (arity, bitLen, s)) (bits.drop bitLen)
                (hm arity (insertAt cur (bits.take bitLen) s) h) (h + 1) := by
            rw [List.map_cons, walk]
          have e2 : (bits.drop bitLen).drop (bp.length * bitLen) =
              bits.drop ((bp.length + 1) * bitLen) := by
            rw [List.drop_drop, hmul, Nat.add_comm]
          have e3 : h + 1 + bp.length = h + (bp.length + 1) := by omega
          rw [e1, e2, e3]
        · rw [if_neg (fun hcc => hc (hcond.mp hcc)), if_neg hc]
      · have hstep :
            porStep hm arity bitLen (cur, h, s :: (bp ++ rest), bits) =
              none := by
          simp [porStep, hb]
        rw [hstep, Option.none_bind]
        have hge : bitLen ≤ (bp.length + 1) * bitLen :=
          Nat.le_mul_of_pos_left bitLen (by omega)
        rw [if_neg (fun hc => hb (le_trans hge hc))]

lemma drop_isEmpty_iff {α : Type} (l : List α) (n : Nat) :
    (l.drop n).isEmpty = true ↔ l.length ≤ n := by
  rw [List.isEmpty_iff_length_eq_zero, List.length_drop]
  omega

/-- `por_no_challenge_input` on a base-only tree shape
(`sub_arity = top_arity = 0`): every path element is a base level. -/
lemma por_base_only (hm : Nat → List F → Nat → F) (base kb : Nat)
    (bp : List (List F)) (c_bits : List Bool) (leaf root : F)
    (hbase : base = 2 ^ kb) (hkb : kb < 64)
    (hbp : ∀ s ∈ bp, s.length = base - 1) :
    por hm base 0 0 c_bits leaf bp root =
      if c_bits.length = bp.length * kb then
        some [(walk hm (bp.map fun s => (base, kb, s)) c_bits leaf 0, 1,
          root)]
      else none := by
  have htzb : trailingZeros base = kb := by
    rw [hbase]; exact trailingZeros_two_pow kb hkb
  have hq : ∀ s ∈ bp, (fun s : List F => s.length == base - 1) s = true :=
    fun s hs0 => by simp [hbp s hs0]
  have htw : (bp.takeWhile fun s => s.length == base - 1) = bp := by
    have h0 := takeWhile_append_all
      (fun s : List F => s.length == base - 1) bp [] hq
    simpa using h0
  have hloop := porLoop_wf hm base kb bp [] c_bits leaf 0 hbp
  rw [List.append_nil] at hloop
  rw [por, htw, htzb, hloop]
  by_cases hc1 : bp.length * kb ≤ c_bits.length
  · rw [if_pos hc1, Option.some_bind]
    rw [if_neg (lt_irrefl 0), Option.some_bind, if_neg (lt_irrefl 0),
      Option.some_bind]
    by_cases hfin : c_bits.length = bp.length * kb
    · rw [if_pos (by rw [drop_isEmpty_iff]; omega), if_pos hfin]
    · rw [if_neg (by
        intro hemp
        rw [drop_isEmpty_iff] at hemp
        omega), if_neg hfin]
  · rw [if_neg hc1, Option.none_bind,
      if_neg (fun hfin => hc1 (le_of_eq hfin.symm))]

lemma porStep_cons (hm : Nat → List F → Nat → F) (arity bitLen : Nat)
    (cur : F) (height : Nat) (sibs : List F) (path2 : List (List F))
    (bits : List Bool) (h1 : sibs.length = arity - 1)
    (h2 : bitLen ≤ bits.length) :
    porStep hm arity bitLen (cur, height, sibs :: path2, bits) =
      some (hm arity (insertAt cur (bits.take bitLen) sibs) height,
        height + 1, path2, bits.drop bitLen) := by
  simp [porStep, h1, h2]

lemma porStep_cons_fail (hm : Nat → List F → Nat → F) (arity bitLen : Nat)
    (cur : F) (height : Nat) (sibs : List F) (path2 : List (List F))
    (bits : List Bool)
    (h : ¬(sibs.length = arity - 1 ∧ bitLen ≤ bits.length)) :
    porStep hm arity bitLen (cur, height, sibs :: path2, bits) = none := by
  simp only [porStep]
  rw [if_neg h]

/-- `por_no_challenge_input` on a base+sub tree shape (`top_arity = 0`,
`sub_arity` a power of two different from the base arity): the leading
path elements are base levels and the last one is the sub level. -/
lemma por_base_sub (hm : Nat → List F → Nat → F) (base sub kb ks : Nat)
    (bp : List (List F)) (ss : List F) (c_bits : List Bool) (leaf root : F)
    (hbase : base = 2 ^ kb) (hkb : kb < 64)
    (hsubeq : sub = 2 ^ ks) (hks : ks < 64)
    (hbp : ∀ s ∈ bp, s.length = base - 1)
    (hss : ss.length = sub - 1)
    (hne : sub ≠ base) :
    por hm base sub 0 c_bits leaf (bp ++ [ss]) root =
      if c_bits.length = bp.length * kb + ks then
        some [(walk hm
          ((bp.map fun s => (base, kb, s)) ++ [(sub, ks, ss)])
          c_bits leaf 0, 1, root)]
      else none := by
  have hsubpos : 0 < sub := by rw [hsubeq]; positivity
  have hbasepos : 0 < base := by rw [hbase]; positivity
  have htzb : trailingZeros base = kb := by
    rw [hbase]; exact trailingZeros_two_pow kb hkb
  have htzs : trailingZeros sub = ks := by
    rw [hsubeq]; exact trailingZeros_two_pow ks hks
  have hq : ∀ s ∈ bp, (fun s : List F => s.length == base - 1) s = true :=
    fun s hs0 => by simp [hbp s hs0]
  have hssne : ((fun s : List F => s.length == base - 1) ss) = false := by
    simp only [beq_eq_false_iff_ne, ne_eq]
    rw [hss]
    omega
  have htw : ((bp ++ [ss]).takeWhile fun s => s.length == base - 1) = bp := by
    rw [takeWhile_append_all _ _ _ hq,
      takeWhile_cons_false (fun s : List F => s.length == base - 1) ss []
        hssne,
      List.append_nil]
  have hloop := porLoop_wf hm base kb bp [ss] c_bits leaf 0 hbp
  rw [por, htw, htzb, htzs, hloop]
  by_cases hc1 : bp.length * kb ≤ c_bits.length
  · rw [if_pos hc1, Option.some_bind, if_pos hsubpos]
    by_cases hc2 : ks ≤ (c_bits.drop (bp.length * kb)).length
    · rw [porStep_cons hm sub ks _ _ _ _ _ hss hc2, Option.some_bind,
        if_neg (lt_irrefl 0), Option.some_bind, List.drop_drop]
      have hlendrop : (c_bits.drop (bp.length * kb)).length =
          c_bits.length - bp.length * kb := List.length_drop _ _
      by_cases hfin : c_bits.length = bp.length * kb + ks
      · rw [if_pos (by rw [drop_isEmpty_iff]; omega), if_pos hfin]
        have hw := walk_append hm (bp.map fun s => (base, kb, s))
          [(sub, ks, ss)] c_bits leaf 0
        rw [hw, sum_map_bitlen, walk, walk]
        simp
      · rw [if_neg (by
            intro hemp
            rw [drop_isEmpty_iff] at hemp
            rw [hlendrop] at hc2
            omega), if_neg hfin]
    · rw [porStep_cons_fail hm sub ks _ _ _ _ _
        (fun hand => hc2 hand.2), Option.none_bind]
      rw [if_neg (by
        intro hfin
        apply hc2
        rw [List.length_drop, hfin]
        omega)]
  · rw [if_neg hc1, Option.none_bind,
      if_neg (fun hfin => hc1
        (le_trans (Nat.le_add_right _ _) (le_of_eq hfin.symm)))]

/-- `por_no_challenge_input` on a full base+sub+top tree shape (all
arities positive powers of two, `sub_arity` different from the base
arity): the leading path elements are base levels, then one sub level,
then one top level. -/
lemma por_base_sub_top (hm : Nat → List F → Nat → F)
    (base sub top kb ks kt : Nat)
    (bp : List (List F)) (ss ts : List F) (c_bits : List Bool)
    (leaf root : F)
    (hbase : base = 2 ^ kb) (hkb : kb < 64)
    (hsubeq : sub = 2 ^ ks) (hks : ks < 64)
    (htopeq : top = 2 ^ kt) (hkt : kt < 64)
    (hbp : ∀ s ∈ bp, s.length = base - 1)
    (hss : ss.length = sub - 1)
    (hts : ts.length = top - 1)
    (hne : sub ≠ base) :
    por hm base sub top c_bits leaf (bp ++ [ss] ++ [ts]) root =
      if c_bits.length = bp.length * kb + ks + kt then
        some [(walk hm
          ((bp.map fun s => (base, kb, s)) ++ [(sub, ks, ss), (top, kt, ts)])
          c_bits leaf 0, 1, root)]
      else none := by
  have hsubpos : 0 < sub := by rw [hsubeq]; positivity
  have htoppos : 0 < top := by rw [htopeq]; positivity
  have hbasepos : 0 < base := by rw [hbase]; positivity
  have htzb : trailingZeros base = kb := by
    rw [hbase]; exact trailingZeros_two_pow kb hkb
  have htzs : trailingZeros sub = ks := by
    rw [hsubeq]; exact trailingZeros_two_pow ks hks
  have htzt : trailingZeros top = kt := by
    rw [htopeq]; exact trailingZeros_two_pow kt hkt
  have hq : ∀ s ∈ bp, (fun s : List F => s.length == base - 1) s = true :=
    fun s hs0 => by simp [hbp s hs0]
  have hssne : ((fun s : List F => s.length == base - 1) ss) = false := by
    simp only [beq_eq_false_iff_ne, ne_eq]
    rw [hss]
    omega
  have hpath : bp ++ [ss] ++ [ts] = bp ++ ([ss] ++ [ts]) :=
    List.append_assoc bp [ss] [ts]
  have htw : ((bp ++ [ss] ++ [ts]).takeWhile
      fun s => s.length == base - 1) = bp := by
    rw [hpath, takeWhile_append_all _ _ _ hq, List.singleton_append,
      takeWhile_cons_false (fun s : List F => s.length == base - 1) ss [ts]
        hssne, List.append_nil]
  have hloop := porLoop_wf hm base kb bp ([ss] ++ [ts]) c_bits leaf 0 hbp
  rw [← hpath] at hloop
  rw [por, htw, htzb, htzs, htzt, hloop]
  by_cases hc1 : bp.length * kb ≤ c_bits.length
  · rw [if_pos hc1, Option.some_bind, if_pos hsubpos]
    by_cases hc2 : ks ≤ (c_bits.drop (bp.length * kb)).length
    · rw [show ([ss] ++ [ts] : List (List F)) = ss :: [ts] from rfl,
        porStep_cons hm sub ks _ _ _ _ _ hss hc2, Option.some_bind,
        if_pos htoppos, List.drop_drop]
      have hlendrop : (c_bits.drop (bp.length * kb)).length =
          c_bits.length - bp.length * kb := List.length_drop _ _
      by_cases hc3 : kt ≤ (c_bits.drop (bp.length * kb + ks)).length
      · rw [porStep_cons hm top kt _ _ _ _ _ hts hc3, Option.some_bind,
          List.drop_drop]
        have hlendrop2 : (c_bits.drop (bp.length * kb + ks)).length =
            c_bits.length - (bp.length * kb + ks) := List.length_drop _ _
        by_cases hfin : c_bits.length = bp.length * kb + ks + kt
        · rw [if_pos (by rw [drop_isEmpty_iff]; omega), if_pos hfin]
          have hw := walk_append hm (bp.map fun s => (base, kb, s))
            [(sub, ks, ss), (top, kt, ts)] c_bits leaf 0
          rw [hw, sum_map_bitlen, walk, walk, walk]
          rw [List.drop_drop]
          simp
        · rw [if_neg (by
              intro hemp
              rw [drop_isEmpty_iff] at hemp
              rw [hlendrop2] at hc3
              omega), if_neg hfin]
      · rw [porStep_cons_fail hm top kt _ _ _ _ _
          (fun hand => hc3 hand.2), Option.none_bind]
        rw [if_neg (by
          intro hfin
          apply hc3
          rw [List.length_drop, hfin]
          omega)]
    · rw [show ([ss] ++ [ts] : List (List F)) = ss :: [ts] from rfl,
        porStep_cons_fail hm sub ks _ _ _ _ _
          (fun hand => hc2 hand.2), Option.none_bind]
      rw [if_neg (by
        intro hfin
        apply hc2
        rw [List.length_drop, hfin]
        omega)]
  · rw [if_neg hc1, Option.none_bind,
      if_neg (fun hfin => hc1 (by
        rw [hfin]
        omega))]

lemma pairRound_length (h2 : F → F → F) :
    ∀ l : List F, (pairRound h2 l).length = l.length / 2
  | [] => by simp [pairRound]
  | [x] => by simp [pairRound]
  | a :: b :: rest => by
      rw [pairRound, List.length_cons, pairRound_length h2 rest]
      simp only [List.length_cons]
      omega

lemma apexRound_even (h2 : F → F → F) :
    ∀ l : List F, l.length % 2 = 0 →
      apexRound h2 l = some (pairRound h2 l)
  | [], _ => by simp [apexRound, pairRound]
  | [x], h => by simp at h
  | a :: b :: rest, h => by
      have hr : rest.length % 2 = 0 := by
        simp only [List.length_cons] at h
        omega
      rw [apexRound, pairRound, apexRound_even h2 rest hr]
      simp

lemma nativeReduceFuel_fuel (h2 : F → F → F) :
    ∀ (f1 f2 : Nat) (l : List F), l.length ≤ f1 → l.length ≤ f2 →
      nativeReduceFuel h2 f1 l = nativeReduceFuel h2 f2 l
  | _, _, [], _, _ => by simp [nativeReduceFuel]
  | _, _, [x], _, _ => by simp [nativeReduceFuel]
  | 0, _, a :: b :: rest, h1, _ => by
      simp only [List.length_cons] at h1
      omega
  | _ + 1, 0, a :: b :: rest, _, h2x => by
      simp only [List.length_cons] at h2x
      omega
  | f1 + 1, f2 + 1, a :: b :: rest, h1, h2x => by
      rw [nativeReduceFuel, nativeReduceFuel]
      have hlen : (pairRound h2 (a :: b :: rest)).length =
          (rest.length + 2) / 2 := by
        rw [pairRound_length]
        simp only [List.length_cons]
      apply nativeReduceFuel_fuel h2 f1 f2 (pairRound h2 (a :: b :: rest))
      · rw [hlen]
        simp only [List.length_cons] at h1
        omega
      · rw [hlen]
        simp only [List.length_cons] at h2x
        omega

/-- Reducing a power-of-two row by one circuit round then recursing equals
the native reduction of the original row. -/
lemma nativeReduce_round (h2 : F → F → F) (l : List F) (hge : 2 ≤ l.length) :
    nativeReduce h2 l = nativeReduce h2 (pairRound h2 l) := by
  match l, hge with
  | a :: b :: rest, _ =>
      rw [nativeReduce, nativeReduce]
      simp only [List.length_cons]
      rw [nativeReduceFuel]
      apply nativeReduceFuel_fuel
      · rw [pairRound_length]
        simp only [List.length_cons]
        omega
      · rfl

/-- The apex-tree generation loop on a power-of-two leaf batch computes
the native pairwise-hash reduction (and never panics). -/
lemma apexIter_spec (h2 : F → F → F) :
    ∀ (k : Nat) (l : List F), l.length = 2 ^ k →
      apexIter h2 k l = some [nativeReduce h2 l] := by
  intro k
  induction k with
  | zero =>
      intro l hl
      simp only [pow_zero] at hl
      obtain ⟨x, rfl⟩ := List.length_eq_one.mp hl
      simp [apexIter, nativeReduce, nativeReduceFuel]
  | succ k ih =>
      intro l hl
      have hmod : l.length % 2 = 0 := by
        rw [hl, pow_succ]
        omega
      have hplen : (pairRound h2 l).length = 2 ^ k := by
        rw [pairRound_length, hl, pow_succ]
        omega
      have hge : 2 ≤ l.length := by
        rw [hl]
        calc 2 = 2 ^ 1 := by norm_num
          _ ≤ 2 ^ (k + 1) := Nat.pow_le_pow_right (by omega) (by omega)
      rw [apexIter, apexRound_even h2 l hmod, Option.some_bind,
        ih (pairRound h2 l) hplen, nativeReduce_round h2 l hge]

/-- Claim C2: for a power-of-two apex leaf batch, `apex_por` reduces the
batch with a perfect binary hash tree whose root equals the native
pairwise-hash reduction of the batch, and delegates to
`por_no_challenge_input` on the binary `TreeD` shape with that root as the
leaf, the supplied partition bits, partition path, and claimed
commitment. -/
theorem c2_apex_reduction (h2 : F → F → F) (hm : Nat → List F → Nat → F)
    (apex_leafs : List F) (partition_bits : List Bool)
    (partition_path : List (List F)) (comm_d : F) (k : Nat)
    (hk : apex_leafs.length = 2 ^ k) (hk64 : k < 64) :
    apex_por h2 hm apex_leafs partition_bits partition_path comm_d =
      por hm 2 0 0 partition_bits (nativeReduce h2 apex_leafs)
        partition_path comm_d := by
  have htz : trailingZeros apex_leafs.length = k := by
    rw [hk]
    exact trailingZeros_two_pow k hk64
  rw [apex_por, htz, apexIter_spec h2 k apex_leafs hk, Option.some_bind]

/-- Witness for C2 at a two-leaf batch. -/
theorem c2_apex_reduction_witness :
    (([1, 2] : List F).length = 2 ^ 1 ∧ 1 < 64) ∧
    apex_por hash2Ex hashMultiEx [1, 2] [] [] 0 =
      por hashMultiEx 2 0 0 [] (nativeReduce hash2Ex [1, 2]) [] 0 :=
  ⟨⟨by decide, by decide⟩,
    c2_apex_reduction hash2Ex hashMultiEx [1, 2] [] [] 0 1 (by decide)
      (by decide)⟩

/-- Counterexample to claim C1 as stated: the tree shape
(base 2, sub 2, top 0) is valid in the claim's sense (arities positive
powers of two, top positive implying sub positive), and the path
`[[0], [0]]` with a 2-bit challenge matches that shape (one base level and
one sub level, each with `arity - 1 = 1` sibling) — yet
`por_no_challenge_input` panics (returns none) instead of walking the
levels and enforcing the root equality, because the leading-elements scan
absorbs the sub-tree path element (it also has `base_arity - 1` siblings)
and the sub-tree step then finds the path exhausted. -/
theorem c1_counterexample :
    ((2 : Nat) = 2 ^ 1 ∧
      (∀ s ∈ [[(0 : F)], [0]], s.length = 2 - 1) ∧
      ([false, false] : List Bool).length = 1 * 1 + 1) ∧
    por hashMultiEx 2 2 0 [false, false] 0 [[0], [0]] 0 = none := by
  constructor
  · exact ⟨by decide, by decide, by decide⟩
  · decide

/-- Claim C1 (amended): on a valid tree shape whose sub arity (when
present) differs from its base arity, and a path/bit input matching that
shape, `por_no_challenge_input` walks the levels in order (all base
levels, then the sub level when `sub > 0`, then the top level when
`top > 0`), consuming `log2(arity)` challenge bits per level as the
insertion index, inserting the current node among the siblings, hashing
the arity-length preimage with the height-keyed multi-input hash gadget,
and finally emits exactly the one equality constraint between the computed
node and the claimed root. -/
theorem c1_amended_walk (hm : Nat → List F → Nat → F)
    (base sub top kb ks kt : Nat) (bp : List (List F)) (ss ts : List F)
    (c_bits : List Bool) (leaf root : F)
    (hbase : base = 2 ^ kb) (hkb : kb < 64)
    (hsub : 0 < sub → sub = 2 ^ ks ∧ ks < 64)
    (htop : 0 < top → top = 2 ^ kt ∧ kt < 64)
    (hshape : 0 < top → 0 < sub)
    (hne : 0 < sub → sub ≠ base)
    (hbp : ∀ s ∈ bp, s.length = base - 1)
    (hss : 0 < sub → ss.length = sub - 1)
    (hts : 0 < top → ts.length = top - 1)
    (hbits : c_bits.length = bp.length * kb +
      (if 0 < sub then ks else 0) + (if 0 < top then kt else 0)) :
    por hm base sub top c_bits leaf
        (bp ++ (if 0 < sub then [ss] else []) ++
          (if 0 < top then [ts] else [])) root =
      some [(walk hm
        ((bp.map fun s => (base, kb, s)) ++
          (if 0 < sub then [(sub, ks, ss)] else []) ++
          (if 0 < top then [(top, kt, ts)] else []))
        c_bits leaf 0, 1, root)] := by
  by_cases hsubpos : 0 < sub
  · obtain ⟨hsubeq, hks⟩ := hsub hsubpos
    by_cases htoppos : 0 < top
    · obtain ⟨htopeq, hkt⟩ := htop htoppos
      simp only [hsubpos, htoppos, ite_true] at hbits ⊢
      rw [por_base_sub_top hm base sub top kb ks kt bp ss ts c_bits leaf
        root hbase hkb hsubeq hks htopeq hkt hbp (hss hsubpos)
        (hts htoppos) (hne hsubpos), if_pos hbits, List.append_assoc]
      rfl
    · have htopz : top = 0 := by omega
      simp only [hsubpos, htoppos, ite_true, ite_false, List.append_nil,
        Nat.add_zero] at hbits ⊢
      rw [htopz, por_base_sub hm base sub kb ks bp ss c_bits leaf root
        hbase hkb hsubeq hks hbp (hss hsubpos) (hne hsubpos),
        if_pos hbits]
  · have htop0 : ¬ 0 < top := fun h => hsubpos (hshape h)
    have hsub0 : sub = 0 := by omega
    have htopz : top = 0 := by omega
    simp only [hsubpos, htop0, ite_false, List.append_nil,
      Nat.add_zero] at hbits ⊢
    rw [hsub0, htopz,
      por_base_only hm base kb bp c_bits leaf root hbase hkb hbp,
      if_pos hbits]

/-- Witness for the amended C1 on the full shape (base 8, sub 2, top 4)
with one base level. -/
theorem c1_amended_walk_witness :
    ((8 : Nat) = 2 ^ 3 ∧ (2 : Nat) = 2 ^ 1 ∧ (4 : Nat) = 2 ^ 2 ∧
      ([false, true, false, true, false, true] : List Bool).length =
        1 * 3 + (if 0 < 2 then 1 else 0) + (if 0 < 4 then 2 else 0)) ∧
    por hashMultiEx 8 2 4 [false, true, false, true, false, true] 0
        ([[1, 2, 3, 4, 5, 6, 7]] ++ (if 0 < 2 then [[8]] else []) ++
          (if 0 < 4 then [[9, 10, 11]] else [])) 0 =
      some [(walk hashMultiEx
        (([[(1 : F), 2, 3, 4, 5, 6, 7]].map fun s => (8, 3, s)) ++
          (if 0 < 2 then [(2, 1, [8])] else []) ++
          (if 0 < 4 then [(4, 2, [(9 : F), 10, 11])] else []))
        [false, true, false, true, false, true] 0 0, 1, 0)] :=
  ⟨⟨by decide, by decide, by decide, by decide⟩,
    c1_amended_walk hashMultiEx 8 2 4 3 1 2 [[1, 2, 3, 4, 5, 6, 7]] [8]
      [9, 10, 11] [false, true, false, true, false, true] 0 0 (by decide)
      (by decide) (by decide) (by decide) (by decide) (by decide)
      (by decide) (by decide) (by decide) (by decide)⟩

end StorageProofsUpdate
